import Mathlib

/-!
Verification of the VitisAI execution provider graph partitioner
(`onnxruntime/core/providers/vitisai/vitisai_execution_provider.cc`).

The partitioner classifies each node of an ONNX graph as supported or
unsupported by the accelerator target, groups supported nodes into
topologically contiguous clusters, computes each cluster's boundary
tensor-name interface, and emits one subgraph descriptor per
non-degenerate cluster.

The embedding below is a direct shallow translation of the C++:
the graph view is a record of the read-only data the partitioner
consumes, the support oracle is the set of supported output tensor
names (the distillation of the XGraph layer scan at the top of
`GetUnsupportedNodeIndices`), unordered sets are modelled as
duplicate-free lists built by insert-if-absent (membership is all the
code observes of them, except for the iteration order of
`external_output_args`, which the source itself leaves
implementation-defined), and the `LOGS_DEFAULT(FATAL)` diagnostic —
which in the source logs and falls through — is made observable as a
list of diagnosed tensor names threaded through the result.
-/

namespace VitisAI

/-- A graph node: stable index consistent with topological order, ordered
input tensor names (explicit and implicit, as enumerated by
`Node::ForEachDef(f, true)`), and ordered output tensor names. -/
structure Node where
  index : Nat
  inputs : List String
  outputs : List String
deriving DecidableEq

/-- An initializer entry of `GraphViewer::GetAllInitializedTensors`: its
name and whether its `TensorProto` carries an external data location. -/
structure Initializer where
  name : String
  externalData : Bool

/-- The read-only graph data consumed by the partitioner: nodes in
topological order, the initializer table, the declared graph inputs
(`GetInputsIncludingInitializers`), the declared graph outputs
(`GetOutputs`), and the nested-graph flag (`IsSubgraph`). -/
structure GraphViewer where
  nodes : List Node
  initializers : List Initializer
  graphInputs : List String
  graphOutputs : List String
  isSubgraph : Bool

/-- Names of all initializers (the key set of `GetAllInitializedTensors`). -/
def GraphViewer.initNames (g : GraphViewer) : List String :=
  g.initializers.map (·.name)

/-- `GraphViewer::GetNode(idx)`: the node with the given index. -/
def GraphViewer.getNode (g : GraphViewer) (idx : Nat) : Option Node :=
  g.nodes.find? (fun n => n.index == idx)

/-- Insertion into a set modelled as a duplicate-free list
(`std::unordered_set::insert` observed through membership, with the
first-insertion order kept so that the model stays deterministic). -/
def insertIfAbsent (l : List String) (a : String) : List String :=
  if a ∈ l then l else l ++ [a]

/-- Insert every element of `l` satisfying `p` into the set `acc`, in
order: the shape of each collection loop in the source. -/
def condInsertAll (p : String → Bool) (acc : List String) (l : List String) : List String :=
  l.foldl (fun r a => if p a then insertIfAbsent r a else r) acc

/-- The inner output scan of `GetUnsupportedNodeIndices`: walk one node's
output names in declaration order; an output in the supported set marks
the node supported; an output outside the set *after* the node was
already marked supported triggers the `LOGS_DEFAULT(FATAL)` diagnostic
naming that tensor (and, in the source, execution simply continues).
Returns the final `is_node_supported` flag and the diagnosed tensors. -/
def nodeScanOutputs (supported : List String) (outs : List String) : Bool × List String :=
  outs.foldl
    (fun acc t =>
      if t ∈ supported then (true, acc.2)
      else if acc.1 then (acc.1, acc.2 ++ [t])
      else acc)
    (false, [])

/-- `GetUnsupportedNodeIndices`: walk the nodes in topological order;
scan each node's outputs for support; a supported node contributes its
initializer-typed inputs to the required-initializer set, an unsupported
node contributes its index to the unsupported list. Returns
(unsupported node indices, required initializers, fatal diagnostics). -/
def getUnsupportedNodeIndices (g : GraphViewer) (supported : List String) :
    List Nat × List String × List String :=
  g.nodes.foldl
    (fun acc n =>
      let scan := nodeScanOutputs supported n.outputs
      let diags := acc.2.2 ++ scan.2
      if scan.1 then
        (acc.1, condInsertAll (fun a => decide (a ∈ g.initNames)) acc.2.1 n.inputs, diags)
      else
        (acc.1 ++ [n.index], acc.2.1, diags))
    ([], [], [])

/-- `GetPartitionedClusters`: for each unsupported node, the span of the
topological order from the previous cut point up to (excluding) that
node forms a cluster if non-empty; the cut point then moves past the
unsupported node; the remaining tail forms a final cluster if non-empty.
`takeWhile`/`dropWhile` render `std::find(prev, end, unsup_node)`. -/
def getPartitionedClusters : List Nat → List Nat → List (List Nat)
  | topo, [] => if topo.isEmpty then [] else [topo]
  | topo, u :: us =>
    let cl := topo.takeWhile (fun x => x != u)
    let rest := (topo.dropWhile (fun x => x != u)).drop 1
    let tl := getPartitionedClusters rest us
    if cl.isEmpty then tl else cl :: tl

/-- First phase of `GetInputsOutputsOfCluster`: scan the cluster's nodes
in order collecting `ordered_input_args` (first-seen order, the
`input_args` set is its membership) and the `output_args` set. -/
def collectDefs (g : GraphViewer) :
    List Nat → List String × List String → List String × List String
  | [], acc => acc
  | idx :: rest, acc =>
    match g.getNode idx with
    | none => collectDefs g rest acc
    | some n =>
      collectDefs g rest (condInsertAll (fun _ => true) acc.1 n.inputs, acc.2 ++ n.outputs)

/-- Consumer scan for one cluster node `n`: every node `m` outside the
cluster that reads an output of `n` marks that output as externally
consumed (`external_output_args`). The source iterates `n`'s consumer
edges; a node reads an output of `n` exactly when it is a consumer of
`n`, so iterating all nodes and testing the read is the same set. -/
def extOutOfNode (cluster : List Nat) (n : Node) : List Node → List String → List String
  | [], acc => acc
  | m :: ms, acc =>
    if m.index ∈ cluster then extOutOfNode cluster n ms acc
    else extOutOfNode cluster n ms (condInsertAll (fun t => decide (t ∈ m.inputs)) acc n.outputs)

/-- The `external_output_args` set: union of the consumer scans of all
cluster nodes. -/
def externalOutputs (g : GraphViewer) (cluster : List Nat) : List Nat → List String → List String
  | [], acc => acc
  | idx :: rest, acc =>
    match g.getNode idx with
    | none => externalOutputs g cluster rest acc
    | some n => externalOutputs g cluster rest (extOutOfNode cluster n g.nodes acc)

/-- The constant-input test of `GetInputsOutputsOfCluster`: the name is
an initializer and not a declared graph input, or it is in the
required-initializer set. -/
def isConstInput (g : GraphViewer) (req : List String) (a : String) : Bool :=
  (decide (a ∈ g.initNames) && !decide (a ∈ g.graphInputs)) || decide (a ∈ req)

/-- `GetInputsOutputsOfCluster`: returns `(cluster_inputs, cluster_outputs)`.
`cluster_inputs` is the dynamic inputs (not produced in the cluster and
not constant) in first-seen order followed by the constant inputs in
first-seen order; `cluster_outputs` is the externally consumed outputs
followed by the graph outputs produced in the cluster not already
listed. -/
def getInputsOutputsOfCluster (g : GraphViewer) (cluster : List Nat) (req : List String) :
    List String × List String :=
  let col := collectDefs g cluster ([], [])
  let orderedInputArgs := col.1
  let outputArgs := col.2
  let extOut := externalOutputs g cluster cluster []
  let constInputs := orderedInputArgs.filter (fun a => isConstInput g req a)
  let dynInputs :=
    orderedInputArgs.filter (fun a => !decide (a ∈ outputArgs) && !isConstInput g req a)
  (dynInputs ++ constInputs,
   extOut ++ g.graphOutputs.filter (fun a => decide (a ∈ outputArgs) && !decide (a ∈ extOut)))

/-- The subgraph descriptor built by `AppendClusterToSubGraph`: generated
name, member node indices, and the resolved boundary lists. -/
structure Descriptor where
  name : String
  nodes : List Nat
  inputs : List String
  outputs : List String

/-- The emission loop of `GetCapability`: for each cluster resolve its
boundary; append one descriptor when `cluster_inputs` is non-empty; the
name counter (`op_counter`, pre-incremented) is threaded explicitly. -/
def emitDescriptors (g : GraphViewer) (req : List String) :
    List (List Nat) → Nat → List Descriptor
  | [], _ => []
  | c :: cs, ctr =>
    let io := getInputsOutputsOfCluster g c req
    if io.1.isEmpty then emitDescriptors g req cs ctr
    else
      { name := "VitisAICustomOp_" ++ toString (ctr + 1),
        nodes := c, inputs := io.1, outputs := io.2 } :: emitDescriptors g req cs (ctr + 1)

/-- `VitisAIExecutionProvider::GetCapability` after the oracle call:
return nothing for a nested graph; return nothing when any initializer
has externally stored data; otherwise classify, cluster, resolve and
emit. Returns (descriptors, fatal diagnostics). -/
def getCapability (g : GraphViewer) (supported : List String) (ctr : Nat) :
    List Descriptor × List String :=
  if g.isSubgraph then ([], [])
  else if g.initializers.any (·.externalData) then ([], [])
  else
    let cls := getUnsupportedNodeIndices g supported
    let clusters := getPartitionedClusters (g.nodes.map (·.index)) cls.1
    (emitDescriptors g cls.2.1 clusters ctr, cls.2.2)

/-- Modelled from the spec wording of §4.3 for the refinement claim about
`cluster_inputs`: dynamic inputs (not produced inside the cluster, not
constant) in first-seen order, then constant inputs in first-seen order,
with names produced inside the cluster excluded from both categories
regardless of classification. -/
def clusterInputsSpec (g : GraphViewer) (cluster : List Nat) (req : List String) : List String :=
  let col := collectDefs g cluster ([], [])
  let dyn := col.1.filter (fun a => !decide (a ∈ col.2) && !isConstInput g req a)
  let cst := col.1.filter (fun a => !decide (a ∈ col.2) && isConstInput g req a)
  dyn ++ cst

/-! ### Membership and nodup lemmas for the set model -/

theorem mem_insertIfAbsent {l : List String} {a t : String} :
    t ∈ insertIfAbsent l a ↔ t ∈ l ∨ t = a := by
  by_cases h : a ∈ l
  · rw [insertIfAbsent, if_pos h]
    exact ⟨Or.inl, fun hc => hc.elim id (fun ht => ht ▸ h)⟩
  · rw [insertIfAbsent, if_neg h]
    simp [List.mem_append]

theorem nodup_insertIfAbsent {l : List String} {a : String} (h : l.Nodup) :
    (insertIfAbsent l a).Nodup := by
  rw [insertIfAbsent]
  split
  · exact h
  · next ha =>
    rw [List.nodup_append]
    refine ⟨h, List.nodup_singleton a, ?_⟩
    intro b hb hb2
    exact ha (List.mem_singleton.mp hb2 ▸ hb)

theorem mem_condInsertAll {p : String → Bool} {l : List String} :
    ∀ {acc t}, t ∈ condInsertAll p acc l ↔ t ∈ acc ∨ (t ∈ l ∧ p t = true) := by
  induction l with
  | nil => intro acc t; simp [condInsertAll]
  | cons a l ih =>
    intro acc t
    have h1 : condInsertAll p acc (a :: l)
        = condInsertAll p (if p a then insertIfAbsent acc a else acc) l := rfl
    rw [h1, ih]
    by_cases hp : p a = true
    · rw [if_pos hp]
      constructor
      · rintro (h | ⟨hl, hpt⟩)
        · rcases mem_insertIfAbsent.mp h with h | rfl
          · exact Or.inl h
          · exact Or.inr ⟨List.mem_cons_self _ _, hp⟩
        · exact Or.inr ⟨List.mem_cons_of_mem _ hl, hpt⟩
      · rintro (h | ⟨hm, hpt⟩)
        · exact Or.inl (mem_insertIfAbsent.mpr (Or.inl h))
        · rcases List.mem_cons.mp hm with rfl | hl
          · exact Or.inl (mem_insertIfAbsent.mpr (Or.inr rfl))
          · exact Or.inr ⟨hl, hpt⟩
    · rw [if_neg hp]
      constructor
      · rintro (h | ⟨hl, hpt⟩)
        · exact Or.inl h
        · exact Or.inr ⟨List.mem_cons_of_mem _ hl, hpt⟩
      · rintro (h | ⟨hm, hpt⟩)
        · exact Or.inl h
        · rcases List.mem_cons.mp hm with rfl | hl
          · exact absurd hpt hp
          · exact Or.inr ⟨hl, hpt⟩

theorem nodup_condInsertAll {p : String → Bool} {l : List String} :
    ∀ {acc}, acc.Nodup → (condInsertAll p acc l).Nodup := by
  induction l with
  | nil => intro acc h; exact h
  | cons a l ih =>
    intro acc h
    have h1 : condInsertAll p acc (a :: l)
        = condInsertAll p (if p a then insertIfAbsent acc a else acc) l := rfl
    rw [h1]
    apply ih
    split
    · exact nodup_insertIfAbsent h
    · exact h

theorem getNode_mem {g : GraphViewer} {idx : Nat} {n : Node}
    (h : g.getNode idx = some n) : n ∈ g.nodes :=
  List.mem_of_find?_eq_some h

/-! ### Characterisation of the cluster-definition scan -/

theorem mem_collectDefs_fst {g : GraphViewer} {cl : List Nat} :
    ∀ {acc : List String × List String} {t : String},
      t ∈ (collectDefs g cl acc).1 ↔
        t ∈ acc.1 ∨ ∃ idx ∈ cl, ∃ n, g.getNode idx = some n ∧ t ∈ n.inputs := by
  induction cl with
  | nil => intro acc t; simp [collectDefs]
  | cons idx rest ih =>
    intro acc t
    cases hn : g.getNode idx with
    | none =>
      simp only [collectDefs, hn]
      rw [ih]
      constructor
      · rintro (h | ⟨j, hj, n, hjn, hin⟩)
        · exact Or.inl h
        · exact Or.inr ⟨j, List.mem_cons_of_mem _ hj, n, hjn, hin⟩
      · rintro (h | ⟨j, hj, n, hjn, hin⟩)
        · exact Or.inl h
        · rcases List.mem_cons.mp hj with rfl | hj2
          · rw [hn] at hjn; cases hjn
          · exact Or.inr ⟨j, hj2, n, hjn, hin⟩
    | some n0 =>
      simp only [collectDefs, hn]
      rw [ih]
      constructor
      · rintro (h | ⟨j, hj, n, hjn, hin⟩)
        · rcases mem_condInsertAll.mp h with h2 | ⟨h2, _⟩
          · exact Or.inl h2
          · exact Or.inr ⟨idx, List.mem_cons_self _ _, n0, hn, h2⟩
        · exact Or.inr ⟨j, List.mem_cons_of_mem _ hj, n, hjn, hin⟩
      · rintro (h | ⟨j, hj, n, hjn, hin⟩)
        · exact Or.inl (mem_condInsertAll.mpr (Or.inl h))
        · rcases List.mem_cons.mp hj with rfl | hj2
          · rw [hn] at hjn
            cases hjn
            exact Or.inl (mem_condInsertAll.mpr (Or.inr ⟨hin, rfl⟩))
          · exact Or.inr ⟨j, hj2, n, hjn, hin⟩

theorem mem_collectDefs_snd {g : GraphViewer} {cl : List Nat} :
    ∀ {acc : List String × List String} {t : String},
      t ∈ (collectDefs g cl acc).2 ↔
        t ∈ acc.2 ∨ ∃ idx ∈ cl, ∃ n, g.getNode idx = some n ∧ t ∈ n.outputs := by
  induction cl with
  | nil => intro acc t; simp [collectDefs]
  | cons idx rest ih =>
    intro acc t
    cases hn : g.getNode idx with
    | none =>
      simp only [collectDefs, hn]
      rw [ih]
      constructor
      · rintro (h | ⟨j, hj, n, hjn, hin⟩)
        · exact Or.inl h
        · exact Or.inr ⟨j, List.mem_cons_of_mem _ hj, n, hjn, hin⟩
      · rintro (h | ⟨j, hj, n, hjn, hin⟩)
        · exact Or.inl h
        · rcases List.mem_cons.mp hj with rfl | hj2
          · rw [hn] at hjn; cases hjn
          · exact Or.inr ⟨j, hj2, n, hjn, hin⟩
    | some n0 =>
      simp only [collectDefs, hn]
      rw [ih]
      constructor
      · rintro (h | ⟨j, hj, n, hjn, hin⟩)
        · rcases List.mem_append.mp h with h2 | h2
          · exact Or.inl h2
          · exact Or.inr ⟨idx, List.mem_cons_self _ _, n0, hn, h2⟩
        · exact Or.inr ⟨j, List.mem_cons_of_mem _ hj, n, hjn, hin⟩
      · rintro (h | ⟨j, hj, n, hjn, hin⟩)
        · exact Or.inl (List.mem_append.mpr (Or.inl h))
        · rcases List.mem_cons.mp hj with rfl | hj2
          · rw [hn] at hjn
            cases hjn
            exact Or.inl (List.mem_append.mpr (Or.inr hin))
          · exact Or.inr ⟨j, hj2, n, hjn, hin⟩

theorem nodup_collectDefs_fst {g : GraphViewer} {cl : List Nat} :
    ∀ {acc : List String × List String}, acc.1.Nodup → ((collectDefs g cl acc).1).Nodup := by
  induction cl with
  | nil => intro acc h; exact h
  | cons idx rest ih =>
    intro acc h
    cases hn : g.getNode idx with
    | none => simp only [collectDefs, hn]; exact ih h
    | some n0 => simp only [collectDefs, hn]; exact ih (nodup_condInsertAll h)

/-! ### Characterisation of the external-output scan -/

theorem mem_extOutOfNode {cluster : List Nat} {n : Node} {ms : List Node} :
    ∀ {acc t}, t ∈ extOutOfNode cluster n ms acc ↔
      t ∈ acc ∨ (t ∈ n.outputs ∧ ∃ m ∈ ms, m.index ∉ cluster ∧ t ∈ m.inputs) := by
  induction ms with
  | nil => intro acc t; simp [extOutOfNode]
  | cons m ms ih =>
    intro acc t
    by_cases hm : m.index ∈ cluster
    · rw [extOutOfNode, if_pos hm, ih]
      constructor
      · rintro (h | ⟨ho, m2, hm2, hnc, hin⟩)
        · exact Or.inl h
        · exact Or.inr ⟨ho, m2, List.mem_cons_of_mem _ hm2, hnc, hin⟩
      · rintro (h | ⟨ho, m2, hm2, hnc, hin⟩)
        · exact Or.inl h
        · rcases List.mem_cons.mp hm2 with rfl | hm3
          · exact absurd hm hnc
          · exact Or.inr ⟨ho, m2, hm3, hnc, hin⟩
    · rw [extOutOfNode, if_neg hm, ih]
      constructor
      · rintro (h | ⟨ho, m2, hm2, hnc, hin⟩)
        · rcases mem_condInsertAll.mp h with h2 | ⟨h2, h3⟩
          · exact Or.inl h2
          · exact Or.inr ⟨h2, m, List.mem_cons_self _ _, hm, of_decide_eq_true h3⟩
        · exact Or.inr ⟨ho, m2, List.mem_cons_of_mem _ hm2, hnc, hin⟩
      · rintro (h | ⟨ho, m2, hm2, hnc, hin⟩)
        · exact Or.inl (mem_condInsertAll.mpr (Or.inl h))
        · rcases List.mem_cons.mp hm2 with rfl | hm3
          · exact Or.inl (mem_condInsertAll.mpr (Or.inr ⟨ho, decide_eq_true hin⟩))
          · exact Or.inr ⟨ho, m2, hm3, hnc, hin⟩

theorem mem_externalOutputs {g : GraphViewer} {cluster : List Nat} {work : List Nat} :
    ∀ {acc t}, t ∈ externalOutputs g cluster work acc ↔
      t ∈ acc ∨ ∃ idx ∈ work, ∃ n, g.getNode idx = some n ∧ t ∈ n.outputs ∧
        ∃ m ∈ g.nodes, m.index ∉ cluster ∧ t ∈ m.inputs := by
  induction work with
  | nil => intro acc t; simp [externalOutputs]
  | cons idx rest ih =>
    intro acc t
    cases hn : g.getNode idx with
    | none =>
      simp only [externalOutputs, hn]
      rw [ih]
      constructor
      · rintro (h | ⟨j, hj, n, hjn, hrest⟩)
        · exact Or.inl h
        · exact Or.inr ⟨j, List.mem_cons_of_mem _ hj, n, hjn, hrest⟩
      · rintro (h | ⟨j, hj, n, hjn, hrest⟩)
        · exact Or.inl h
        · rcases List.mem_cons.mp hj with rfl | hj2
          · rw [hn] at hjn; cases hjn
          · exact Or.inr ⟨j, hj2, n, hjn, hrest⟩
    | some n0 =>
      simp only [externalOutputs, hn]
      rw [ih]
      constructor
      · rintro (h | ⟨j, hj, n, hjn, hrest⟩)
        · rcases mem_extOutOfNode.mp h with h2 | ⟨ho, hex⟩
          · exact Or.inl h2
          · exact Or.inr ⟨idx, List.mem_cons_self _ _, n0, hn, ho, hex⟩
        · exact Or.inr ⟨j, List.mem_cons_of_mem _ hj, n, hjn, hrest⟩
      · rintro (h | ⟨j, hj, n, hjn, ho, hex⟩)
        · exact Or.inl (mem_extOutOfNode.mpr (Or.inl h))
        · rcases List.mem_cons.mp hj with rfl | hj2
          · rw [hn] at hjn
            cases hjn
            exact Or.inl (mem_extOutOfNode.mpr (Or.inr ⟨ho, hex⟩))
          · exact Or.inr ⟨j, hj2, n, hjn, ho, hex⟩

/-! ### Cluster-builder lemmas -/

theorem takeWhile_dropWhile_of_mem {u : Nat} :
    ∀ {topo : List Nat}, u ∈ topo →
      ∃ l₁ l₂, topo = l₁ ++ u :: l₂ ∧ u ∉ l₁ ∧
        topo.takeWhile (fun x => x != u) = l₁ ∧
        topo.dropWhile (fun x => x != u) = u :: l₂ := by
  intro topo hm
  induction topo with
  | nil => cases hm
  | cons a t ih =>
    by_cases ha : a = u
    · subst ha
      refine ⟨[], t, rfl, List.not_mem_nil _, ?_, ?_⟩
      · simp [List.takeWhile_cons]
      · simp [List.dropWhile_cons]
    · have hmt : u ∈ t := by
        rcases List.mem_cons.mp hm with rfl | h
        · exact absurd rfl ha
        · exact h
      obtain ⟨l₁, l₂, heq, hnm, htake, hdrop⟩ := ih hmt
      refine ⟨a :: l₁, l₂, by rw [heq]; rfl, ?_, ?_, ?_⟩
      · intro hc
        rcases List.mem_cons.mp hc with rfl | h
        · exact ha rfl
        · exact hnm h
      · simp [List.takeWhile_cons, ha, htake]
      · simp [List.dropWhile_cons, ha, hdrop]

theorem flatten_ite_cons {c : List Nat} {tl : List (List Nat)} :
    (if c.isEmpty then tl else c :: tl).flatten = c ++ tl.flatten := by
  cases c with
  | nil => simp
  | cons a t => simp

theorem flatten_getPartitionedClusters {uns : List Nat} :
    ∀ {topo : List Nat}, uns.Sublist topo → topo.Nodup →
      (getPartitionedClusters topo uns).flatten =
        topo.filter (fun x => decide (x ∉ uns)) := by
  induction uns with
  | nil =>
    intro topo _ _
    have hf : topo.filter (fun x => decide (x ∉ ([] : List Nat))) = topo := by
      apply List.filter_eq_self.mpr
      intro a _
      simp
    rw [hf, getPartitionedClusters]
    cases topo with
    | nil => simp
    | cons a t => simp
  | cons u us ih =>
    intro topo hs hn
    have hu : u ∈ topo := hs.subset (List.mem_cons_self _ _)
    obtain ⟨l₁, l₂, heq, hnm, htake, hdrop⟩ := takeWhile_dropWhile_of_mem hu
    subst heq
    obtain ⟨hn₁, hncons, hdisj⟩ := List.nodup_append.mp hn
    obtain ⟨hul₂, hn₂⟩ := List.nodup_cons.mp hncons
    -- the remaining unsupported nodes are a sublist of the tail after `u`
    obtain ⟨m₁, m₂, hmeq, hm₁, hm₂⟩ := List.sublist_append_iff.mp hs
    have hus : us.Sublist l₂ := by
      cases m₁ with
      | nil =>
        rw [List.nil_append] at hmeq
        rw [← hmeq] at hm₂
        exact List.cons_sublist_cons.mp hm₂
      | cons b m₁t =>
        have hb : b = u := (List.cons.injEq _ _ _ _ ▸ hmeq.symm).1
        subst hb
        exact absurd (hm₁.subset (List.mem_cons_self _ _)) hnm
    have hrec : getPartitionedClusters (l₁ ++ u :: l₂) (u :: us)
        = if l₁.isEmpty then getPartitionedClusters l₂ us
          else l₁ :: getPartitionedClusters l₂ us := by
      simp only [getPartitionedClusters]
      rw [htake, hdrop]
      rfl
    rw [hrec, flatten_ite_cons, ih hus hn₂]
    rw [List.filter_append]
    have hfl₁ : l₁.filter (fun x => decide (x ∉ u :: us)) = l₁ := by
      apply List.filter_eq_self.mpr
      intro a ha
      have hau : a ≠ u := fun hc => hnm (hc ▸ ha)
      have haus : a ∉ us := by
        intro hc
        exact hdisj ha (List.mem_cons_of_mem _ (hus.subset hc))
      simp [hau, haus]
    have hfl₂ : (u :: l₂).filter (fun x => decide (x ∉ u :: us))
        = l₂.filter (fun x => decide (x ∉ us)) := by
      rw [List.filter_cons]
      rw [if_neg (by simp)]
      apply List.filter_congr
      intro a ha
      have hau : a ≠ u := fun hc => hul₂ (hc ▸ ha)
      simp [hau]
    rw [hfl₁, hfl₂]

theorem filter_mem_of_sublist :
    ∀ {topo uns : List Nat}, uns.Sublist topo → topo.Nodup →
      topo.filter (fun x => decide (x ∈ uns)) = uns := by
  intro topo
  induction topo with
  | nil =>
    intro uns hs _
    rw [List.sublist_nil.mp hs]
    rfl
  | cons a t ih =>
    intro uns hs hn
    obtain ⟨hat, hnt⟩ := List.nodup_cons.mp hn
    rcases List.sublist_cons_iff.mp hs with h | ⟨r, rfl, hr⟩
    · have hauns : a ∉ uns := fun hc => hat (h.subset hc)
      rw [List.filter_cons, if_neg (by simp [hauns])]
      exact ih h hnt
    · rw [List.filter_cons, if_pos (by simp)]
      have hcongr : t.filter (fun x => decide (x ∈ a :: r))
          = t.filter (fun x => decide (x ∈ r)) := by
        apply List.filter_congr
        intro x hx
        have hxa : x ≠ a := fun hc => hat (hc ▸ hx)
        simp [hxa]
      rw [hcongr, ih hr hnt]

/-! ### Unfolding lemmas for the boundary resolver -/

theorem fst_getInputsOutputsOfCluster (g : GraphViewer) (cluster : List Nat)
    (req : List String) :
    (getInputsOutputsOfCluster g cluster req).1 =
      (collectDefs g cluster ([], [])).1.filter
          (fun a => !decide (a ∈ (collectDefs g cluster ([], [])).2)
            && !isConstInput g req a)
        ++ (collectDefs g cluster ([], [])).1.filter
            (fun a => isConstInput g req a) := rfl

theorem snd_getInputsOutputsOfCluster (g : GraphViewer) (cluster : List Nat)
    (req : List String) :
    (getInputsOutputsOfCluster g cluster req).2 =
      externalOutputs g cluster cluster []
        ++ g.graphOutputs.filter
            (fun a => decide (a ∈ (collectDefs g cluster ([], [])).2)
              && !decide (a ∈ externalOutputs g cluster cluster [])) := rfl

theorem clusterInputsSpec_eq (g : GraphViewer) (cluster : List Nat)
    (req : List String) :
    clusterInputsSpec g cluster req =
      (collectDefs g cluster ([], [])).1.filter
          (fun a => !decide (a ∈ (collectDefs g cluster ([], [])).2)
            && !isConstInput g req a)
        ++ (collectDefs g cluster ([], [])).1.filter
            (fun a => !decide (a ∈ (collectDefs g cluster ([], [])).2)
              && isConstInput g req a) := rfl

/-! ### Emission lemmas -/

theorem mem_emitDescriptors {g : GraphViewer} {req : List String} :
    ∀ {cs : List (List Nat)} {ctr : Nat} {d : Descriptor},
      d ∈ emitDescriptors g req cs ctr →
        ∃ c ∈ cs, d.nodes = c ∧ (getInputsOutputsOfCluster g c req).1 ≠ [] := by
  intro cs
  induction cs with
  | nil => intro ctr d h; cases h
  | cons c cs ih =>
    intro ctr d h
    by_cases hio : (getInputsOutputsOfCluster g c req).1.isEmpty = true
    · rw [emitDescriptors, if_pos hio] at h
      obtain ⟨c2, hc2, hd, hne⟩ := ih h
      exact ⟨c2, List.mem_cons_of_mem _ hc2, hd, hne⟩
    · rw [emitDescriptors, if_neg hio] at h
      rcases List.mem_cons.mp h with rfl | h2
      · refine ⟨c, List.mem_cons_self _ _, rfl, ?_⟩
        intro hnil
        rw [hnil] at hio
        exact hio rfl
      · obtain ⟨c2, hc2, hd, hne⟩ := ih h2
        exact ⟨c2, List.mem_cons_of_mem _ hc2, hd, hne⟩

theorem countP_emitDescriptors_eq_zero {g : GraphViewer} {req : List String}
    {c : List Nat} {cs : List (List Nat)} {ctr : Nat} (hc : c ∉ cs) :
    (emitDescriptors g req cs ctr).countP (fun d => decide (d.nodes = c)) = 0 := by
  rw [List.countP_eq_zero]
  intro d hd hdec
  obtain ⟨c2, hc2, hdc, _⟩ := mem_emitDescriptors hd
  have h1 : d.nodes = c := of_decide_eq_true hdec
  have hcc : c2 = c := by rw [← hdc, h1]
  exact hc (hcc ▸ hc2)

theorem countP_emitDescriptors_eq_one {g : GraphViewer} {req : List String}
    {c : List Nat} :
    ∀ {cs : List (List Nat)} {ctr : Nat}, cs.Nodup → c ∈ cs →
      (getInputsOutputsOfCluster g c req).1 ≠ [] →
      (emitDescriptors g req cs ctr).countP (fun d => decide (d.nodes = c)) = 1 := by
  intro cs
  induction cs with
  | nil => intro ctr _ hc _; cases hc
  | cons c0 cs ih =>
    intro ctr hnd hc hne
    obtain ⟨h0, hnds⟩ := List.nodup_cons.mp hnd
    rcases List.mem_cons.mp hc with rfl | hmem
    · have hio : ¬ (getInputsOutputsOfCluster g c req).1.isEmpty = true := by
        intro h
        exact hne (List.isEmpty_iff.mp h)
      rw [emitDescriptors, if_neg hio, List.countP_cons,
        countP_emitDescriptors_eq_zero h0]
      simp
    · have hc0 : c0 ≠ c := fun h => h0 (h ▸ hmem)
      by_cases hio : (getInputsOutputsOfCluster g c0 req).1.isEmpty = true
      · rw [emitDescriptors, if_pos hio]
        exact ih hnds hmem hne
      · rw [emitDescriptors, if_neg hio, List.countP_cons, ih hnds hmem hne]
        simp [hc0]

/-! ### The claims -/

/-- C2: for every topological node order with distinct indices and every
unsupported-node list that is a subsequence of it in the same relative
order, the concatenation of the node lists of the clusters built by
`getPartitionedClusters` equals the topological order with the
unsupported nodes removed, and the unsupported nodes occupy exactly
their original positions in the order — so reinserting them at those
positions reproduces the topological order exactly. -/
theorem C2_cluster_interleaving (topo uns : List Nat)
    (hs : uns.Sublist topo) (hn : topo.Nodup) :
    (getPartitionedClusters topo uns).flatten =
        topo.filter (fun x => decide (x ∉ uns)) ∧
      topo.filter (fun x => decide (x ∈ uns)) = uns :=
  ⟨flatten_getPartitionedClusters hs hn, filter_mem_of_sublist hs hn⟩

theorem C2_cluster_interleaving_witness :
    (getPartitionedClusters [0, 1, 2, 3, 4] [1, 3]).flatten =
        List.filter (fun x => decide (x ∉ [1, 3])) [0, 1, 2, 3, 4] ∧
      List.filter (fun x => decide (x ∈ [1, 3])) [0, 1, 2, 3, 4] = [1, 3] :=
  C2_cluster_interleaving [0, 1, 2, 3, 4] [1, 3] (by decide) (by decide)

/-- C7 as stated is false at the empty graph: with no nodes and an empty
unsupported list the cluster builder yields zero clusters (the tail span
is empty and is dropped), not one cluster spanning the whole graph. -/
theorem C7_counterexample :
    ¬ (getPartitionedClusters ([] : List Nat) []).length = 1 := by
  decide

/-- C7 amended: for every NON-EMPTY topological order an empty
unsupported list yields exactly one cluster spanning the whole order in
original topological order, and for every order in which every node is
unsupported the builder yields zero clusters. -/
theorem C7_degenerate_cases (topo : List Nat) :
    (topo ≠ [] → getPartitionedClusters topo [] = [topo]) ∧
      getPartitionedClusters topo topo = [] := by
  constructor
  · intro h
    rw [getPartitionedClusters]
    cases topo with
    | nil => exact absurd rfl h
    | cons a t => rfl
  · induction topo with
    | nil => rfl
    | cons a t ih =>
      have h1 : getPartitionedClusters (a :: t) (a :: t)
          = getPartitionedClusters t t := by
        simp only [getPartitionedClusters]
        rw [List.takeWhile_cons, List.dropWhile_cons]
        simp
      rw [h1, ih]

theorem C7_degenerate_cases_witness :
    getPartitionedClusters [5, 6] [] = [[5, 6]] ∧
      getPartitionedClusters [5, 6] [5, 6] = [] :=
  ⟨(C7_degenerate_cases [5, 6]).1 (by decide), (C7_degenerate_cases [5, 6]).2⟩

/-- A single-node graph whose node has outputs `a` then `b` with only `a`
in the supported set: the node's outputs disagree on support. -/
def gC1 : GraphViewer :=
  ⟨[⟨0, ["x"], ["a", "b"]⟩], [], ["x"], ["b"], false⟩

/-- The same graph with the output declaration order reversed (`b` then
`a`): the disagreement is the same, but the unsupported output comes
first. -/
def gC1rev : GraphViewer :=
  ⟨[⟨0, ["x"], ["b", "a"]⟩], [], ["x"], ["b"], false⟩

/-- C1 (code bug): on a node whose outputs disagree on support the code
does NOT abort. In output order `[a, b]` the `LOGS_DEFAULT(FATAL)`
diagnostic names tensor `b`, but execution falls through: the node is
kept supported and one descriptor is emitted, not zero. In output order
`[b, a]` (unsupported output first) the disagreement is not even
detected: no diagnostic at all, and one descriptor is emitted. -/
theorem C1_inconsistency_not_fatal :
    (getCapability gC1 ["a"] 0).2 = ["b"] ∧
      (getCapability gC1 ["a"] 0).1.length = 1 ∧
      (getCapability gC1rev ["a"] 0).2 = [] ∧
      (getCapability gC1rev ["a"] 0).1.length = 1 :=
  ⟨rfl, rfl, rfl, rfl⟩

/-- C9: for a nested sub-computation graph, and for a graph containing an
initializer with externally stored data, `getCapability` returns zero
descriptors; the entry point is a total function returning normally, so
no error reaches the caller. -/
theorem C9_recoverable_guards (g : GraphViewer) (supported : List String) (ctr : Nat)
    (h : g.isSubgraph = true ∨ g.initializers.any (·.externalData) = true) :
    (getCapability g supported ctr).1 = [] := by
  rcases h with h | h
  · rw [getCapability, if_pos h]
  · rw [getCapability]
    by_cases h2 : g.isSubgraph = true
    · rw [if_pos h2]
    · rw [if_neg h2, if_pos h]

/-- A graph with one externally-stored initializer. -/
def gC9 : GraphViewer := ⟨[], [⟨"w", true⟩], [], [], false⟩

theorem C9_recoverable_guards_witness :
    (getCapability gC9 [] 0).1 = [] :=
  C9_recoverable_guards gC9 [] 0 (Or.inr (by decide))

/-- C3: every tensor name read as an input by any node of a cluster is
either produced as an output by a node inside the cluster or appears in
the `cluster_inputs` list computed by `getInputsOutputsOfCluster`. -/
theorem C3_cluster_inputs_cover (g : GraphViewer) (cluster : List Nat) (req : List String)
    (idx : Nat) (n : Node) (a : String)
    (hidx : idx ∈ cluster) (hn : g.getNode idx = some n) (ha : a ∈ n.inputs) :
    (∃ j ∈ cluster, ∃ m, g.getNode j = some m ∧ a ∈ m.outputs) ∨
      a ∈ (getInputsOutputsOfCluster g cluster req).1 := by
  by_cases hout : a ∈ (collectDefs g cluster ([], [])).2
  · left
    rcases mem_collectDefs_snd.mp hout with h | h
    · cases h
    · exact h
  · right
    have haord : a ∈ (collectDefs g cluster ([], [])).1 :=
      mem_collectDefs_fst.mpr (Or.inr ⟨idx, hidx, n, hn, ha⟩)
    rw [fst_getInputsOutputsOfCluster]
    by_cases hc : isConstInput g req a = true
    · exact List.mem_append.mpr (Or.inr (List.mem_filter.mpr ⟨haord, hc⟩))
    · refine List.mem_append.mpr (Or.inl (List.mem_filter.mpr ⟨haord, ?_⟩))
      rw [Bool.not_eq_true] at hc
      simp [hout, hc]

/-- C4: every tensor name produced by a node inside a cluster that is
read by some node outside the cluster or is a declared graph-level
output appears in the `cluster_outputs` list computed by
`getInputsOutputsOfCluster`. -/
theorem C4_cluster_outputs_cover (g : GraphViewer) (cluster : List Nat) (req : List String)
    (idx : Nat) (n : Node) (t : String)
    (hidx : idx ∈ cluster) (hn : g.getNode idx = some n) (ht : t ∈ n.outputs)
    (hneed : (∃ m ∈ g.nodes, m.index ∉ cluster ∧ t ∈ m.inputs) ∨ t ∈ g.graphOutputs) :
    t ∈ (getInputsOutputsOfCluster g cluster req).2 := by
  rw [snd_getInputsOutputsOfCluster]
  by_cases hext : t ∈ externalOutputs g cluster cluster []
  · exact List.mem_append.mpr (Or.inl hext)
  · rcases hneed with ⟨m, hm, hmc, hmi⟩ | hgo
    · exact absurd
        (mem_externalOutputs.mpr (Or.inr ⟨idx, hidx, n, hn, ht, m, hm, hmc, hmi⟩)) hext
    · refine List.mem_append.mpr (Or.inr (List.mem_filter.mpr ⟨hgo, ?_⟩))
      have hout : t ∈ (collectDefs g cluster ([], [])).2 :=
        mem_collectDefs_snd.mpr (Or.inr ⟨idx, hidx, n, hn, ht⟩)
      simp [hout, hext]

/-- C5: under the graph invariant that tensor names are unique — no
initializer name and no required-initializer name is also produced as a
node output — the `cluster_inputs` list computed by the code equals the
spec description `clusterInputsSpec`: dynamic inputs in first-seen order
followed by constant inputs in first-seen order, with every name
produced inside the cluster excluded regardless of classification. -/
theorem C5_cluster_inputs_shape (g : GraphViewer) (cluster : List Nat) (req : List String)
    (hwf : ∀ n ∈ g.nodes, ∀ t ∈ n.outputs, t ∉ g.initNames ∧ t ∉ req) :
    (getInputsOutputsOfCluster g cluster req).1 = clusterInputsSpec g cluster req := by
  rw [fst_getInputsOutputsOfCluster, clusterInputsSpec_eq]
  congr 1
  apply List.filter_congr
  intro a _
  by_cases hc : isConstInput g req a = true
  · have hnout : ¬ a ∈ (collectDefs g cluster ([], [])).2 := by
      intro hmem
      rcases mem_collectDefs_snd.mp hmem with h | ⟨j, _, n, hjn, hout⟩
      · cases h
      · have hw := hwf n (getNode_mem hjn) a hout
        rw [isConstInput, Bool.or_eq_true] at hc
        rcases hc with h2 | h2
        · rw [Bool.and_eq_true] at h2
          exact hw.1 (of_decide_eq_true h2.1)
        · exact hw.2 (of_decide_eq_true h2)
    simp [hc, hnout]
  · rw [Bool.not_eq_true] at hc
    simp [hc]

/-- C6: a cluster whose computed `cluster_inputs` list is empty is
silently dropped — no emitted descriptor carries its node list — and a
cluster of the (duplicate-free) cluster list whose `cluster_inputs` is
non-empty gives rise to exactly one emitted descriptor. -/
theorem C6_degenerate_cluster_dropped (g : GraphViewer) (req : List String)
    (clusters : List (List Nat)) (ctr : Nat) (c : List Nat)
    (hnd : clusters.Nodup) (hc : c ∈ clusters) :
    ((getInputsOutputsOfCluster g c req).1 = [] →
        ∀ d ∈ emitDescriptors g req clusters ctr, d.nodes ≠ c) ∧
      ((getInputsOutputsOfCluster g c req).1 ≠ [] →
        (emitDescriptors g req clusters ctr).countP
          (fun d => decide (d.nodes = c)) = 1) := by
  constructor
  · intro hempty d hd hdc
    obtain ⟨c2, _, hd2, hne⟩ := mem_emitDescriptors hd
    have hcc : c2 = c := by rw [← hd2, hdc]
    rw [hcc] at hne
    exact hne hempty
  · intro hne
    exact countP_emitDescriptors_eq_one hnd hc hne

/-- C10: the computed `cluster_inputs` list contains every tensor name
at most once: the first-seen input list is duplicate-free, and the
dynamic and constant passes select disjoint subsets of it. -/
theorem C10_cluster_inputs_nodup (g : GraphViewer) (cluster : List Nat)
    (req : List String) :
    ((getInputsOutputsOfCluster g cluster req).1).Nodup := by
  rw [fst_getInputsOutputsOfCluster]
  have hord : ((collectDefs g cluster ([], [])).1).Nodup :=
    nodup_collectDefs_fst List.nodup_nil
  apply List.Nodup.append (hord.filter _) (hord.filter _)
  intro a ha hb
  have h1 := (List.mem_filter.mp ha).2
  have h2 := (List.mem_filter.mp hb).2
  rw [Bool.and_eq_true] at h1
  have h3 := h1.2
  rw [h2] at h3
  simp at h3

/-- A two-node well-formed graph used as the concrete witness input:
node 0 reads the default-valued input `w` (an initializer that is also a
graph input, and required by a supported node) and the dynamic graph
input `x`, producing `y`; node 1 reads `y` and the pure constant
initializer `c`, producing the graph output `z`. -/
def gEx : GraphViewer :=
  ⟨[⟨0, ["w", "x"], ["y"]⟩, ⟨1, ["y", "c"], ["z"]⟩],
   [⟨"w", false⟩, ⟨"c", false⟩], ["x", "w"], ["z"], false⟩

theorem C3_cluster_inputs_cover_witness :
    (0 ∈ [0, 1] ∧ gEx.getNode 0 = some ⟨0, ["w", "x"], ["y"]⟩ ∧
        "w" ∈ (Node.mk 0 ["w", "x"] ["y"]).inputs) ∧
      ((∃ j ∈ [0, 1], ∃ m, gEx.getNode j = some m ∧ "w" ∈ m.outputs) ∨
        "w" ∈ (getInputsOutputsOfCluster gEx [0, 1] ["w"]).1) :=
  ⟨⟨by decide, rfl, by decide⟩,
    C3_cluster_inputs_cover gEx [0, 1] ["w"] 0 ⟨0, ["w", "x"], ["y"]⟩ "w"
      (by decide) rfl (by decide)⟩

theorem C4_cluster_outputs_cover_witness :
    (0 ∈ [0] ∧ gEx.getNode 0 = some ⟨0, ["w", "x"], ["y"]⟩ ∧
        "y" ∈ (Node.mk 0 ["w", "x"] ["y"]).outputs ∧
        (∃ m ∈ gEx.nodes, m.index ∉ [0] ∧ "y" ∈ m.inputs)) ∧
      "y" ∈ (getInputsOutputsOfCluster gEx [0] ["w"]).2 :=
  ⟨⟨by decide, rfl, by decide, ⟨⟨1, ["y", "c"], ["z"]⟩, by decide, by decide, by decide⟩⟩,
    C4_cluster_outputs_cover gEx [0] ["w"] 0 ⟨0, ["w", "x"], ["y"]⟩ "y"
      (by decide) rfl (by decide)
      (Or.inl ⟨⟨1, ["y", "c"], ["z"]⟩, by decide, by decide, by decide⟩)⟩

theorem C5_cluster_inputs_shape_witness :
    (∀ n ∈ gEx.nodes, ∀ t ∈ n.outputs, t ∉ gEx.initNames ∧ t ∉ ["w"]) ∧
      (getInputsOutputsOfCluster gEx [0, 1] ["w"]).1 =
        clusterInputsSpec gEx [0, 1] ["w"] :=
  ⟨by decide, C5_cluster_inputs_shape gEx [0, 1] ["w"] (by decide)⟩

theorem C6_degenerate_cluster_dropped_witness :
    (([[0], [1]] : List (List Nat)).Nodup ∧ [0] ∈ [[0], [1]]) ∧
      (((getInputsOutputsOfCluster gEx [0] ["w"]).1 = [] →
          ∀ d ∈ emitDescriptors gEx ["w"] [[0], [1]] 0, d.nodes ≠ [0]) ∧
        ((getInputsOutputsOfCluster gEx [0] ["w"]).1 ≠ [] →
          (emitDescriptors gEx ["w"] [[0], [1]] 0).countP
            (fun d => decide (d.nodes = [0])) = 1)) :=
  ⟨⟨by decide, by decide⟩,
    C6_degenerate_cluster_dropped gEx ["w"] [[0], [1]] 0 [0] (by decide) (by decide)⟩

end VitisAI
